import Mathlib

/-!
# Verification of the Mastermind game core (`src/Mastermind/mastermind.jsx`)

Shallow embedding of the game-logic core of the single-file React Mastermind
implementation: secret generation (`randomCode`), guess scoring (`scoreGuess`)
and the session state machine carried by the `MastermindApp` component state
(`secret`, `current`, `cursor`, `history`, `gameOver`, `reveal` together with
the configuration fields `palette`, `length`, `attempts`, `allowDup`).

Conventions of the embedding:
* A JS value that may be a color key, `null` or `undefined` is modelled as
  `Option String` (`none` = `null`/`undefined`).  The two JS nullish values are
  conflated; the program never compares `null` with `undefined` on a path that
  matters (guesses are guarded by `canSubmit`, secrets come from a non-empty
  palette).
* `Math.random()`-driven choices are parameters: `rnd : Nat → Nat` supplies
  the index choices of the with-replacement generator (`Math.floor(Math.random()
  * keys.length)` becomes `rnd i % keys.length`), and `shuffle : List String →
  List String` stands for `arr.sort(() => Math.random() - 0.5)`, which always
  produces some permutation of `arr`; theorems carry the permutation fact as a
  hypothesis.
* Machine numbers are `Nat`/`Int`; the only subtraction the source performs is
  `Math.max(0, overlap - blacks)`, embedded over `Int` and then truncated.
-/

namespace Mastermind

/-- Scoring result, `{ blacks, whites }` in the source (`blacks` = exact,
`whites` = partial). -/
structure Feedback where
  blacks : Nat
  whites : Nat
deriving DecidableEq, Repr

/-- The `blacks` accumulation of `scoreGuess` (line 32):
`secret.reduce((acc, s, i) => acc + (s === guess[i] ? 1 : 0), 0)`,
transcribed as a recursion over the elements of `secret` that carries the
running index `i`.  `guess[i]` is `guess.get? i`; an out-of-range access is
`undefined` (`none`), which is never `===` to the (defined) element `s`. -/
def blacksAux [DecidableEq α] (guess : List α) : List α → Nat → Nat
  | [], _ => 0
  | s :: rest, i => (if guess.get? i = some s then 1 else 0) + blacksAux guess rest (i + 1)

/-- The `overlap` accumulation of `scoreGuess` (lines 35–43): build color→count
maps for `secret` and `guess` over all positions and sum
`Math.min(secCounts.get(k), gueCounts.get(k) || 0)` over the keys of
`secCounts`, i.e. over each distinct color of `secret` once.  `secret.dedup`
enumerates exactly these keys (JS `Map` iterates them in first-insertion
order; the order is irrelevant to the sum). -/
def overlapOf [DecidableEq α] (secret guess : List α) : Nat :=
  (secret.dedup.map (fun k => min (secret.count k) (guess.count k))).sum

/-- `scoreGuess(secret, guess)` (lines 30–46): `blacks` positions matching
exactly, `whites = Math.max(0, overlap - blacks)`. -/
def scoreGuess [DecidableEq α] (secret guess : List α) : Feedback :=
  let blacks := blacksAux guess secret 0
  let overlap := overlapOf secret guess
  { blacks := blacks, whites := (max 0 ((overlap : Int) - (blacks : Int))).toNat }

/-! ## Positionwise-match helpers (proof-side characterisations) -/

/-- Number of positions at which the two lists agree (walking both lists). -/
def countMatches [DecidableEq α] : List α → List α → Nat
  | a :: s, b :: g => (if a = b then 1 else 0) + countMatches s g
  | _, _ => 0

/-- The colors of the exactly-matching positions. -/
def matched [DecidableEq α] : List α → List α → List α
  | a :: s, b :: g => if a = b then a :: matched s g else matched s g
  | _, _ => []

theorem countMatches_nil_left [DecidableEq α] (g : List α) : countMatches ([] : List α) g = 0 := by
  cases g <;> rfl

theorem countMatches_nil_right [DecidableEq α] (s : List α) : countMatches s ([] : List α) = 0 := by
  cases s <;> rfl

theorem countMatches_cons [DecidableEq α] (a b : α) (s g : List α) :
    countMatches (a :: s) (b :: g) = (if a = b then 1 else 0) + countMatches s g := rfl

theorem matched_nil_left [DecidableEq α] (g : List α) : matched ([] : List α) g = [] := by
  cases g <;> rfl

theorem matched_nil_right [DecidableEq α] (s : List α) : matched s ([] : List α) = [] := by
  cases s <;> rfl

theorem matched_cons [DecidableEq α] (a b : α) (s g : List α) :
    matched (a :: s) (b :: g) = if a = b then a :: matched s g else matched s g := rfl

/-- The index-carrying `blacks` loop computes the positionwise match count of
`secret` against the remaining part of `guess`. -/
theorem blacksAux_eq_countMatches_drop [DecidableEq α] (guess : List α) :
    ∀ (secret : List α) (n : Nat), blacksAux guess secret n = countMatches secret (guess.drop n) := by
  intro secret
  induction secret with
  | nil => intro n; simp [blacksAux, countMatches_nil_left]
  | cons a rest ih =>
    intro n
    rw [blacksAux, ih (n + 1)]
    rcases h : guess.get? n with _ | b
    · have hlen : guess.length ≤ n := List.get?_eq_none.mp h
      have h1 : guess.drop n = [] := List.drop_eq_nil_of_le hlen
      have h2 : guess.drop (n + 1) = [] := List.drop_eq_nil_of_le (Nat.le_succ_of_le hlen)
      simp [h1, h2, countMatches_nil_right]
    · have hn : n < guess.length := by
        by_contra hc
        have hnone : guess.get? n = none := List.get?_eq_none.mpr (Nat.le_of_not_lt hc)
        rw [hnone] at h
        exact Option.noConfusion h
      have hdrop : guess.drop n = guess[n] :: guess.drop (n + 1) :=
        List.drop_eq_getElem_cons hn
      have hb : guess[n] = b := by
        have := List.getElem?_eq_getElem hn
        rw [← List.get?_eq_getElem?] at this
        rw [h] at this
        exact (Option.some.injEq _ _).mp this.symm
      rw [hdrop, hb, countMatches_cons]
      by_cases hab : a = b <;> simp [hab, eq_comm]

theorem blacksAux_eq_countMatches [DecidableEq α] (secret guess : List α) :
    blacksAux guess secret 0 = countMatches secret guess := by
  simpa using blacksAux_eq_countMatches_drop guess secret 0

theorem countMatches_le_length [DecidableEq α] (s g : List α) :
    countMatches s g ≤ s.length := by
  induction s generalizing g with
  | nil => simp [countMatches_nil_left]
  | cons a s ih =>
    cases g with
    | nil => simp [countMatches_nil_right]
    | cons b g =>
      rw [countMatches_cons]
      have := ih g
      by_cases hab : a = b <;> simp [hab] <;> omega

theorem countMatches_self [DecidableEq α] (s : List α) : countMatches s s = s.length := by
  induction s with
  | nil => simp [countMatches_nil_left]
  | cons a s ih => simp [countMatches_cons, ih, Nat.add_comm]

theorem countMatches_comm [DecidableEq α] (s g : List α) :
    countMatches s g = countMatches g s := by
  induction s generalizing g with
  | nil => simp [countMatches_nil_left, countMatches_nil_right]
  | cons a s ih =>
    cases g with
    | nil => simp [countMatches_nil_left, countMatches_nil_right]
    | cons b g => simp [countMatches_cons, ih g, eq_comm]

theorem eq_of_countMatches_eq_length [DecidableEq α] :
    ∀ (s g : List α), s.length = g.length → countMatches s g = s.length → g = s := by
  intro s
  induction s with
  | nil =>
    intro g h _
    cases g with
    | nil => rfl
    | cons b g => simp at h
  | cons a s ih =>
    intro g h hc
    cases g with
    | nil => simp at h
    | cons b g =>
      rw [countMatches_cons] at hc
      have hle := countMatches_le_length s g
      by_cases hab : a = b
      · subst hab
        rw [if_pos rfl, List.length_cons] at hc
        have hcm : countMatches s g = s.length := by omega
        have hg := ih g (by simpa using h) hcm
        rw [hg]
      · rw [if_neg hab, Nat.zero_add, List.length_cons] at hc
        omega

theorem countMatches_eq_length_iff [DecidableEq α] (s g : List α)
    (h : s.length = g.length) : countMatches s g = s.length ↔ g = s := by
  constructor
  · exact eq_of_countMatches_eq_length s g h
  · rintro rfl
    exact countMatches_self g

theorem matched_comm [DecidableEq α] (s g : List α) : matched s g = matched g s := by
  induction s generalizing g with
  | nil => simp [matched_nil_left, matched_nil_right]
  | cons a s ih =>
    cases g with
    | nil => simp [matched_nil_left, matched_nil_right]
    | cons b g =>
      rw [matched_cons, matched_cons]
      by_cases hab : a = b
      · subst hab
        simp [ih g]
      · simp [hab, Ne.symm hab, ih g]

theorem countMatches_eq_length_matched [DecidableEq α] (s g : List α) :
    countMatches s g = (matched s g).length := by
  induction s generalizing g with
  | nil => simp [countMatches_nil_left, matched_nil_left]
  | cons a s ih =>
    cases g with
    | nil => simp [countMatches_nil_right, matched_nil_right]
    | cons b g =>
      rw [countMatches_cons, matched_cons]
      by_cases hab : a = b <;> simp [hab, ih g, Nat.add_comm]

theorem mem_matched [DecidableEq α] {x : α} :
    ∀ {s g : List α}, x ∈ matched s g → x ∈ s := by
  intro s
  induction s with
  | nil => intro g hx; rw [matched_nil_left] at hx; cases hx
  | cons a s ih =>
    intro g hx
    cases g with
    | nil => rw [matched_nil_right] at hx; cases hx
    | cons b g =>
      rw [matched_cons] at hx
      by_cases hab : a = b
      · rw [if_pos hab] at hx
        rcases List.mem_cons.mp hx with h | h
        · simp [h]
        · exact List.mem_cons_of_mem a (ih h)
      · rw [if_neg hab] at hx
        exact List.mem_cons_of_mem a (ih hx)

theorem count_matched_le_left [DecidableEq α] (k : α) :
    ∀ (s g : List α), (matched s g).count k ≤ s.count k := by
  intro s
  induction s with
  | nil => intro g; simp [matched_nil_left]
  | cons a s ih =>
    intro g
    cases g with
    | nil => simp [matched_nil_right]
    | cons b g =>
      rw [matched_cons]
      by_cases hab : a = b
      · rw [if_pos hab]
        rw [List.count_cons, List.count_cons]
        have := ih g
        omega
      · rw [if_neg hab]
        rw [List.count_cons]
        have := ih g
        omega

theorem count_matched_le_right [DecidableEq α] (k : α) (s g : List α) :
    (matched s g).count k ≤ g.count k := by
  rw [matched_comm]
  exact count_matched_le_left k g s

/-- Summing a one-point indicator over a duplicate-free list. -/
theorem sum_map_indicator [DecidableEq α] (x : α) :
    ∀ (m : List α), m.Nodup →
      (m.map (fun k => if k = x then 1 else 0)).sum = if x ∈ m then 1 else 0 := by
  intro m
  induction m with
  | nil => intro _; simp
  | cons a m ih =>
    intro hm
    rw [List.map_cons, List.sum_cons, ih (List.Nodup.of_cons hm)]
    by_cases hax : a = x
    · subst hax
      have hnot : a ∉ m := (List.nodup_cons.mp hm).1
      simp [hnot]
    · simp [hax, Ne.symm hax, List.mem_cons]

theorem sum_map_add_nat (m : List α) (f g : α → Nat) :
    (m.map (fun k => f k + g k)).sum = (m.map f).sum + (m.map g).sum := by
  induction m with
  | nil => rfl
  | cons a m ih =>
    rw [List.map_cons, List.sum_cons, ih, List.map_cons, List.sum_cons,
      List.map_cons, List.sum_cons]
    omega

/-- Summing, over a duplicate-free list `m` covering every element of `l`,
the multiplicities of `l` recovers the length of `l`. -/
theorem sum_map_count_eq [DecidableEq α] :
    ∀ (l m : List α), m.Nodup → (∀ x ∈ l, x ∈ m) →
      (m.map (fun k => l.count k)).sum = l.length := by
  intro l
  induction l with
  | nil => intro m _ _; simp
  | cons x l ih =>
    intro m hm hl
    have hrw : (m.map (fun k => (x :: l).count k)) =
        (m.map (fun k => l.count k + if k = x then 1 else 0)) := by
      apply List.map_congr_left
      intro k _
      rw [List.count_cons]
      by_cases hkx : k = x
      · simp [hkx]
      · have hxk : ¬((x == k) = true) := by
          simp only [beq_iff_eq]
          exact Ne.symm hkx
        simp [hkx, hxk]
    rw [hrw, sum_map_add_nat, ih m hm (fun y hy => hl y (List.mem_cons_of_mem x hy)),
      sum_map_indicator x m hm, if_pos (hl x (List.mem_cons_self x l))]
    simp

/-! ## Overlap: bounds, identity, and the symmetric (spec-side) form -/

theorem countMatches_le_overlapOf [DecidableEq α] (s g : List α) :
    countMatches s g ≤ overlapOf s g := by
  rw [countMatches_eq_length_matched, overlapOf]
  have hsum : ((s.dedup).map (fun k => (matched s g).count k)).sum = (matched s g).length :=
    sum_map_count_eq (matched s g) s.dedup (List.nodup_dedup s)
      (fun x hx => List.mem_dedup.mpr (mem_matched hx))
  calc (matched s g).length
      = ((s.dedup).map (fun k => (matched s g).count k)).sum := hsum.symm
    _ ≤ ((s.dedup).map (fun k => min (s.count k) (g.count k))).sum := by
        apply List.sum_le_sum
        intro k _
        exact le_min (count_matched_le_left k s g) (count_matched_le_right k s g)

theorem overlapOf_le_length [DecidableEq α] (s g : List α) :
    overlapOf s g ≤ s.length := by
  rw [overlapOf]
  have hsum : ((s.dedup).map (fun k => s.count k)).sum = s.length :=
    sum_map_count_eq s s.dedup (List.nodup_dedup s) (fun x hx => List.mem_dedup.mpr hx)
  calc ((s.dedup).map (fun k => min (s.count k) (g.count k))).sum
      ≤ ((s.dedup).map (fun k => s.count k)).sum := by
        apply List.sum_le_sum
        intro k _
        exact min_le_left _ _
    _ = s.length := hsum

theorem overlapOf_self [DecidableEq α] (s : List α) : overlapOf s s = s.length := by
  rw [overlapOf]
  have hrw : (s.dedup.map (fun k => min (s.count k) (s.count k))) =
      (s.dedup.map (fun k => s.count k)) := by
    apply List.map_congr_left
    intro k _
    exact min_self _
  rw [hrw]
  exact sum_map_count_eq s s.dedup (List.nodup_dedup s) (fun x hx => List.mem_dedup.mpr hx)

/-- Spec-side form of the overlap (§4.2 step 3 of the spec): the sum, over
every color appearing in either code, of the minimum of the two counts. -/
def overlapSpec [DecidableEq α] (s g : List α) : Nat :=
  ∑ k ∈ s.toFinset ∪ g.toFinset, min (s.count k) (g.count k)

theorem dedup_toFinset [DecidableEq α] (l : List α) : l.dedup.toFinset = l.toFinset := by
  apply Finset.ext
  intro x
  simp [List.mem_toFinset, List.mem_dedup]

theorem overlapOf_eq_overlapSpec [DecidableEq α] (s g : List α) :
    overlapOf s g = overlapSpec s g := by
  rw [overlapOf, overlapSpec]
  have h1 : (s.dedup.map (fun k => min (s.count k) (g.count k))).sum =
      ∑ k ∈ s.toFinset, min (s.count k) (g.count k) := by
    rw [← dedup_toFinset s]
    exact (List.sum_toFinset _ (List.nodup_dedup s)).symm
  rw [h1]
  apply Finset.sum_subset (Finset.subset_union_left)
  intro k _ hk
  have hns : k ∉ s := fun hmem => hk (List.mem_toFinset.mpr hmem)
  have : s.count k = 0 := List.count_eq_zero.mpr hns
  simp [this]

theorem overlapSpec_comm [DecidableEq α] (s g : List α) :
    overlapSpec s g = overlapSpec g s := by
  rw [overlapSpec, overlapSpec, Finset.union_comm]
  exact Finset.sum_congr rfl (fun k _ => min_comm _ _)

theorem overlapOf_comm [DecidableEq α] (s g : List α) :
    overlapOf s g = overlapOf g s := by
  rw [overlapOf_eq_overlapSpec, overlapOf_eq_overlapSpec, overlapSpec_comm]

/-- Spec-side form of the exact count (§4.2 step 1 of the spec): the number of
positions at which the two (equal-length) codes carry the same color. -/
def exactSpec [DecidableEq α] (s g : List α) : Nat :=
  (s.zip g).countP (fun p => decide (p.1 = p.2))

theorem countMatches_eq_exactSpec [DecidableEq α] (s g : List α) :
    countMatches s g = exactSpec s g := by
  rw [exactSpec]
  induction s generalizing g with
  | nil => simp [countMatches_nil_left]
  | cons a s ih =>
    cases g with
    | nil => simp [countMatches_nil_right]
    | cons b g =>
      rw [countMatches_cons, List.zip_cons_cons, List.countP_cons, ih g]
      by_cases hab : a = b <;> simp [hab, Nat.add_comm]

/-- Full characterisation of `scoreGuess`: `blacks` is the positionwise match
count, `whites` is `overlap - blacks` (the `Math.max(0, ...)` floor never
bites because `overlap ≥ blacks`). -/
theorem scoreGuess_eq [DecidableEq α] (s g : List α) :
    scoreGuess s g = { blacks := countMatches s g,
                       whites := overlapOf s g - countMatches s g } := by
  rw [scoreGuess]
  have hb := blacksAux_eq_countMatches s g
  have hle := countMatches_le_overlapOf s g
  simp only [hb]
  congr 1
  omega

/-! ## Secret generation (`randomCode`, lines 17–28) -/

/-- The duplicates-allowed branch of `randomCode` (line 19):
`Array.from({ length }, () => keys[Math.floor(Math.random() * keys.length)])`.
Each position draws an arbitrary index `rnd i`, reduced mod `keys.length`
(matching the range of `Math.floor(Math.random() * keys.length)` for a
non-empty `keys`); for an empty `keys` the JS access yields `undefined`
(`none`), and so does `keys.get?`. -/
def randomCodeDup (keys : List String) (length : Nat) (rnd : Nat → Nat) :
    List (Option String) :=
  (List.range length).map (fun i => keys.get? (rnd i % keys.length))

/-- `randomCode(keys, length, allowDuplicates)` (lines 17–28).  The source's
fallback `return randomCode(keys, length, true)` immediately takes the
duplicates branch, embedded here as a direct call to `randomCodeDup`;
`arr.sort(() => Math.random() - 0.5)` is the `shuffle` parameter (always a
permutation of its argument), and `arr.slice(0, length)` is `take length`. -/
def randomCode (keys : List String) (length : Nat) (allowDuplicates : Bool)
    (rnd : Nat → Nat) (shuffle : List String → List String) : List (Option String) :=
  if allowDuplicates then
    randomCodeDup keys length rnd
  else if length > keys.length then
    -- Fallback to allowing duplicates if impossible
    randomCodeDup keys length rnd
  else
    ((shuffle keys).take length).map some

/-! ## The app state machine (`MastermindApp`, lines 109–341) -/

/-- One entry of the palette: `{ k, label, hex }`. -/
structure PaletteEntry where
  k : String
  label : String
  hex : String
deriving DecidableEq, Repr

/-- `defaultPalette` (lines 8–15). -/
def defaultPalette : List PaletteEntry :=
  [⟨"r", "Red", "#ef4444"⟩,
   ⟨"b", "Blue", "#3b82f6"⟩,
   ⟨"g", "Green", "#22c55e"⟩,
   ⟨"y", "Yellow", "#eab308"⟩,
   ⟨"o", "Orange", "#f97316"⟩,
   ⟨"p", "Purple", "#a855f7"⟩]

/-- The extra entries added by `addCyanMagenta` (lines 170–173). -/
def extraCyanMagenta : List PaletteEntry :=
  [⟨"c", "Cyan", "#06b6d4"⟩,
   ⟨"m", "Magenta", "#db2777"⟩]

/-- `addCyanMagenta` (lines 169–178): append the extra entries whose key is
not already present. -/
def addCyanMagentaTo (palette : List PaletteEntry) : List PaletteEntry :=
  palette ++ extraCyanMagenta.filter (fun e => !((palette.map (fun p => p.k)).contains e.k))

/-- One history record (line 120): `{guess: string[], feedback: {blacks, whites}}`. -/
structure Attempt where
  guess : List (Option String)
  feedback : Feedback
deriving DecidableEq, Repr

/-- The `useState` fields of `MastermindApp` (lines 110–122), together with
the configuration fields.  `length`, `attempts`, `allowDup` and `palette` are
independent state the settings panel can change at any time. -/
structure AppState where
  palette : List PaletteEntry
  length : Nat
  attempts : Nat
  allowDup : Bool
  secret : List (Option String)
  current : List (Option String)
  cursor : Nat
  history : List Attempt
  gameOver : Bool
  reveal : Bool
deriving DecidableEq, Repr

/-- `keys` (line 115): `palette.map((p) => p.k)`. -/
def keysOf (st : AppState) : List String :=
  st.palette.map (fun p => p.k)

/-- JS truthiness of a slot value (`!!c`, line 135): `null`/`undefined` and
the empty string are falsy, every other string is truthy. -/
def jsTruthy : Option String → Bool
  | none => false
  | some s => !(s == "")

/-- `canSubmit` (line 135): `current.every((c) => !!c) && !gameOver`. -/
def canSubmit (st : AppState) : Bool :=
  st.current.all jsTruthy && !st.gameOver

/-- The three session statuses of the spec, derived from the component state
exactly as `statusText` (lines 180–184) derives them: `gameOver` false is
`InProgress`; with `gameOver` true, `history.at(-1)?.feedback.blacks ===
length` separates `Won` from `Lost`. -/
inductive Status where
  | InProgress
  | Won
  | Lost
deriving DecidableEq, Repr

def status (st : AppState) : Status :=
  if st.gameOver then
    if st.history.getLast?.map (fun a => a.feedback.blacks) = some st.length then Status.Won
    else Status.Lost
  else Status.InProgress

/-- `submit` (lines 151–166).  The early `return` on `!canSubmit` leaves every
field unchanged.  Otherwise `g = current.slice()` (all slots truthy under the
guard), the guess is scored, appended to history, and then: win when
`feedback.blacks === length`; else game over when `newHistory.length >=
attempts`; else clear the current row.  The source never throws. -/
def submit (st : AppState) : AppState :=
  if !(canSubmit st) then st
  else
    let g := st.current
    let feedback := scoreGuess st.secret g
    let newHistory := st.history ++ [{ guess := g, feedback := feedback }]
    if feedback.blacks = st.length then
      { st with history := newHistory, gameOver := true }
    else if st.attempts ≤ newHistory.length then
      { st with history := newHistory, gameOver := true }
    else
      { st with history := newHistory,
                current := List.replicate st.length none, cursor := 0 }

/-- `revealSecret` (§6 of the spec; lines 311–322 of the source): the UI's
"show code" block renders `secret` as-is — a pure read of the state. -/
def revealSecret (st : AppState) : List (Option String) :=
  st.secret

/-- JS array assignment `next[cursor] = k` (line 144): in range it replaces
the slot; past the end it extends the array with holes (`undefined`). -/
def jsSet (l : List (Option String)) (i : Nat) (v : String) : List (Option String) :=
  if i < l.length then l.set i (some v)
  else l ++ List.replicate (i - l.length) none ++ [some v]

/-- Clamping of the numeric settings inputs, e.g.
`Math.min(10, Math.max(2, Number(e.target.value)))` (line 207). -/
def clampInput (lo hi v : Int) : Nat :=
  (min hi (max lo v)).toNat

/-- The user-triggerable events of `MastermindApp`.  `reset` carries the
entropy its `randomCode` call consumes. -/
inductive Action where
  | setLength (v : Int)
  | setAttempts (v : Int)
  | setAllowDup (b : Bool)
  | setSlot (i : Nat)
  | pick (k : String)
  | submitGuess
  | reset (rnd : Nat → Nat) (shuffle : List String → List String)
  | addCyanMagenta
  | resetPalette
  | toggleReveal

/-- A `reset` action must carry a genuine shuffle: `arr.sort(...)` always
produces a permutation of `arr`.  Every other action is unconstrained. -/
def ActionOK : Action → Prop
  | Action.reset _ shuffle => ∀ l, (shuffle l).Perm l
  | _ => True

/-- One event-handler step of `MastermindApp`:
* `setLength`/`setAttempts` (lines 206–208, 220–222): clamp and store — and
  nothing else (no reset of the running game);
* `setAllowDup` (line 231), `setSlot` = `handleSetSlot` (lines 137–139);
* `pick` = `handlePick` (lines 141–149): ignored when the game is over, else
  writes the picked key into the `cursor` slot and advances the cursor mod
  `length`;
* `submitGuess` = `submit` (lines 151–166);
* `reset` = `resetGame` (lines 125–133): fresh secret from the current
  configuration, empty row and history, game running, secret hidden;
* `addCyanMagenta` (lines 169–178), `resetPalette` (line 244),
  `toggleReveal` (line 312). -/
def step (st : AppState) (a : Action) : AppState :=
  match a with
  | Action.setLength v => { st with length := clampInput 2 10 v }
  | Action.setAttempts v => { st with attempts := clampInput 1 20 v }
  | Action.setAllowDup b => { st with allowDup := b }
  | Action.setSlot i => { st with cursor := i }
  | Action.pick k =>
      if st.gameOver then st
      else { st with current := jsSet st.current st.cursor k,
                     cursor := (st.cursor + 1) % st.length }
  | Action.submitGuess => submit st
  | Action.reset rnd shuffle =>
      { st with secret := randomCode (keysOf st) st.length st.allowDup rnd shuffle,
                current := List.replicate st.length none,
                cursor := 0,
                history := [],
                gameOver := false,
                reveal := false }
  | Action.addCyanMagenta => { st with palette := addCyanMagentaTo st.palette }
  | Action.resetPalette => { st with palette := defaultPalette }
  | Action.toggleReveal => { st with reveal := !st.reveal }

/-- The initial component state (lines 110–122): default palette, length 4,
10 attempts, duplicates allowed, a fresh secret, an empty 4-slot row. -/
def initState (rnd : Nat → Nat) : AppState :=
  { palette := defaultPalette,
    length := 4,
    attempts := 10,
    allowDup := true,
    secret := randomCode (defaultPalette.map (fun p => p.k)) 4 true rnd id,
    current := List.replicate 4 none,
    cursor := 0,
    history := [],
    gameOver := false,
    reveal := false }

/-- States reachable in one session that started with entropy `rnd` for the
initial secret. -/
inductive Reachable (rnd : Nat → Nat) : AppState → Prop where
  | init : Reachable rnd (initState rnd)
  | step {st : AppState} {a : Action} :
      Reachable rnd st → ActionOK a → Reachable rnd (step st a)

theorem reachable_foldl {rnd : Nat → Nat} {st : AppState} (h : Reachable rnd st) :
    ∀ tr : List Action, (∀ a ∈ tr, ActionOK a) → Reachable rnd (tr.foldl step st) := by
  intro tr
  induction tr generalizing st with
  | nil => intro _; exact h
  | cons a tr ih =>
    intro hok
    exact ih (Reachable.step h (hok a (List.mem_cons_self a tr)))
      (fun b hb => hok b (List.mem_cons_of_mem a hb))

/-! ## Spec-side error behaviour (for the error-handling claims)

The source never throws: neither `randomCode` nor `submit` contains a `throw`
or produces an error value — their entire observable behaviour is the value /
state update embedded above.  The spec instead prescribes surfaced errors;
the following two definitions transcribe that prescription so the divergence
can be stated. -/

/-- Modelled from the spec (§7): `submitGuess` must surface `InvalidInput` for
a guess submitted after the game is terminal or with unset slots. -/
def submitSpecError (st : AppState) : Option String :=
  if status st ≠ Status.InProgress ∨ ¬(st.current.all jsTruthy = true) then
    some "InvalidInput"
  else none

/-- Modelled from the spec (§4.1 failure clause, §7): generation must surface
`InvalidConfiguration` on a non-positive length or an empty palette. -/
def generateSpecError (keys : List String) (length : Nat) : Option String :=
  if length = 0 ∨ keys = [] then some "InvalidConfiguration" else none

/-! ## C1 — scoring algorithm (exact / overlap / partial) -/

/-- C1, counterexample to the claim's concrete instance: for secret
`[r,r,b,g]` and guess `[r,b,b,y]` the claim (following the spec's worked
example) asserts feedback `(exact 1, partial 1)`, but positions 0 **and** 2
match exactly, so the code computes `blacks = 2`, `overlap = 2`,
`whites = 0`. -/
theorem scoreGuess_duplicate_example_counterexample :
    scoreGuess ["r", "r", "b", "g"] ["r", "b", "b", "y"] = { blacks := 2, whites := 0 } ∧
      ({ blacks := 2, whites := 0 } : Feedback) ≠ { blacks := 1, whites := 1 } := by
  constructor
  · decide
  · decide

/-- C1 (amended): for equal-length codes, `scoreGuess` returns
`exact` = the number of positions where secret and guess agree, and
`partial` = `overlap - exact`, where `overlap` sums `min(countInSecret,
countInGuess)` over every color of either code; on the concrete duplicate
example `[r,r,b,g]` vs `[r,b,b,y]` this yields `(exact 2, partial 0)`
(positions 0 and 2 match, and overlap = 2), not `(1, 1)` as the spec's
worked example miscounts. -/
theorem scoreGuess_matches_spec_algorithm :
    (∀ (secret guess : List String), secret.length = guess.length →
        scoreGuess secret guess =
          { blacks := exactSpec secret guess,
            whites := overlapSpec secret guess - exactSpec secret guess }) ∧
      scoreGuess ["r", "r", "b", "g"] ["r", "b", "b", "y"] = { blacks := 2, whites := 0 } := by
  constructor
  · intro secret guess _
    rw [scoreGuess_eq, countMatches_eq_exactSpec, overlapOf_eq_overlapSpec]
  · decide

/-- C1, witness: the general statement applied to the equal-length pair
`[r,b]` / `[b,r]`. -/
theorem scoreGuess_matches_spec_algorithm_witness :
    scoreGuess ["r", "b"] ["b", "r"] =
      { blacks := exactSpec ["r", "b"] ["b", "r"],
        whites := overlapSpec ["r", "b"] ["b", "r"] - exactSpec ["r", "b"] ["b", "r"] } :=
  scoreGuess_matches_spec_algorithm.1 ["r", "b"] ["b", "r"] (by decide)

/-! ## C3 — self-scoring and the exact-equals-length characterisation -/

/-- C3: scoring a code against itself gives `(length, 0)`, and for
equal-length codes `exact = length` holds exactly when the guess is the
secret (duplicates included). -/
theorem scoreGuess_self_and_exact_iff :
    ∀ (s g : List String),
      scoreGuess s s = { blacks := s.length, whites := 0 } ∧
        (s.length = g.length → ((scoreGuess s g).blacks = s.length ↔ g = s)) := by
  intro s g
  constructor
  · rw [scoreGuess_eq, countMatches_self, overlapOf_self]
    simp
  · intro h
    rw [scoreGuess_eq]
    exact countMatches_eq_length_iff s g h

/-- C3, witness: at `s = [r,r]` the self-score is `(2,0)`, and against the
equal-length guess `[r,b]` the `exact = length` test is equivalent to code
equality. -/
theorem scoreGuess_self_and_exact_iff_witness :
    scoreGuess ["r", "r"] ["r", "r"] = { blacks := 2, whites := 0 } ∧
      ((scoreGuess ["r", "r"] ["r", "b"]).blacks = 2 ↔ ["r", "b"] = ["r", "r"]) :=
  ⟨(scoreGuess_self_and_exact_iff ["r", "r"] ["r", "r"]).1,
   (scoreGuess_self_and_exact_iff ["r", "r"] ["r", "b"]).2 (by decide)⟩

/-! ## C4 — feedback bounds -/

/-- C4: for equal-length codes, `0 ≤ exact ≤ length`, `0 ≤ partial`, and
`exact + partial ≤ length`. -/
theorem scoreGuess_bounds :
    ∀ (s g : List String), s.length = g.length →
      0 ≤ (scoreGuess s g).blacks ∧ (scoreGuess s g).blacks ≤ s.length ∧
        0 ≤ (scoreGuess s g).whites ∧
        (scoreGuess s g).blacks + (scoreGuess s g).whites ≤ s.length := by
  intro s g _
  rw [scoreGuess_eq]
  refine ⟨Nat.zero_le _, countMatches_le_length s g, Nat.zero_le _, ?_⟩
  have h1 := countMatches_le_overlapOf s g
  have h2 := overlapOf_le_length s g
  simp only
  omega

/-- C4, witness: the bounds at the concrete pair `[r,b]` / `[b,b]`. -/
theorem scoreGuess_bounds_witness :
    0 ≤ (scoreGuess ["r", "b"] ["b", "b"]).blacks ∧
      (scoreGuess ["r", "b"] ["b", "b"]).blacks ≤ 2 ∧
      0 ≤ (scoreGuess ["r", "b"] ["b", "b"]).whites ∧
      (scoreGuess ["r", "b"] ["b", "b"]).blacks + (scoreGuess ["r", "b"] ["b", "b"]).whites ≤ 2 :=
  scoreGuess_bounds ["r", "b"] ["b", "b"] (by decide)

/-! ## C9 — symmetry of feedback -/

/-- C9: for equal-length codes the full feedback is symmetric in its two
arguments — both the exact and the partial counts agree when the arguments
are swapped (hence so do their sums). -/
theorem scoreGuess_comm :
    ∀ (a b : List String), a.length = b.length → scoreGuess a b = scoreGuess b a := by
  intro a b _
  rw [scoreGuess_eq, scoreGuess_eq, countMatches_comm, overlapOf_comm]

/-- C9, witness: symmetry at the concrete pair `[r,r]` / [r,b]`. -/
theorem scoreGuess_comm_witness :
    scoreGuess ["r", "r"] ["r", "b"] = scoreGuess ["r", "b"] ["r", "r"] :=
  scoreGuess_comm ["r", "r"] ["r", "b"] (by decide)

/-! ## C2 — submit transition (win / loss / continue) -/

/-- The attempt record `{ guess: g, feedback }` that `submit` appends. -/
def submittedAttempt (st : AppState) : Attempt :=
  { guess := st.current, feedback := scoreGuess st.secret st.current }

/-- Result of `submit` in the two game-over branches (lines 158–161). -/
def submitResultOver (st : AppState) : AppState :=
  { st with history := st.history ++ [submittedAttempt st], gameOver := true }

/-- Result of `submit` in the continue branch (lines 162–165). -/
def submitResultNext (st : AppState) : AppState :=
  { st with history := st.history ++ [submittedAttempt st],
            current := List.replicate st.length none,
            cursor := 0 }

theorem submit_of_canSubmit (st : AppState) (h : canSubmit st = true) :
    submit st =
      if (scoreGuess st.secret st.current).blacks = st.length then submitResultOver st
      else if st.attempts ≤ (st.history ++ [submittedAttempt st]).length then submitResultOver st
      else submitResultNext st := by
  simp only [submit, h, Bool.not_true, Bool.false_eq_true, if_false,
    submitResultOver, submitResultNext, submittedAttempt]

theorem gameOver_eq_false_of_canSubmit (st : AppState) (h : canSubmit st = true) :
    st.gameOver = false := by
  rw [canSubmit, Bool.and_eq_true] at h
  simpa using h.2

/-- C2 (amended): submitting a complete guess while the game runs appends the
scored attempt to history, leaves the secret alone, and then decides the
outcome in order: `Won` when `exact` equals the configured length (even when
attempts remain, even on the `maxAttempts`-th guess); otherwise `Lost` when
the new history length is **at least** `attempts` (the source compares with
`>=`, which agrees with the claim's `==` whenever the history was still below
the attempt budget before the call); otherwise the game continues. -/
theorem submit_transition :
    ∀ st : AppState, canSubmit st = true →
      (submit st).history = st.history ++ [submittedAttempt st] ∧
        (submit st).secret = st.secret ∧
        status (submit st) =
          (if (scoreGuess st.secret st.current).blacks = st.length then Status.Won
           else if st.attempts ≤ st.history.length + 1 then Status.Lost
           else Status.InProgress) := by
  intro st h
  have hgo := gameOver_eq_false_of_canSubmit st h
  rw [submit_of_canSubmit st h]
  have hlen : (st.history ++ [submittedAttempt st]).length = st.history.length + 1 := by
    simp
  by_cases hw : (scoreGuess st.secret st.current).blacks = st.length
  · rw [if_pos hw, if_pos hw]
    refine ⟨rfl, rfl, ?_⟩
    rw [status]
    simp [submitResultOver, List.getLast?_concat, submittedAttempt, hw]
  · rw [if_neg hw, if_neg hw]
    by_cases hl : st.attempts ≤ st.history.length + 1
    · rw [if_pos (by rw [hlen]; exact hl), if_pos hl]
      rw [status]
      refine ⟨rfl, rfl, ?_⟩
      simp [submitResultOver, List.getLast?_concat, submittedAttempt, hw]
    · rw [if_neg (by rw [hlen]; exact hl), if_neg hl]
      refine ⟨rfl, rfl, ?_⟩
      rw [status]
      simp [submitResultNext, hgo]

/-- C2, witness: a concrete winning submission (secret `[r,r]`, full current
row `[r,r]`, empty history, 5 attempts). -/
def c2WitnessState : AppState :=
  { palette := defaultPalette,
    length := 2,
    attempts := 5,
    allowDup := true,
    secret := [some "r", some "r"],
    current := [some "r", some "r"],
    cursor := 0,
    history := [],
    gameOver := false,
    reveal := false }

theorem submit_transition_witness :
    (submit c2WitnessState).history = c2WitnessState.history ++ [submittedAttempt c2WitnessState] ∧
      (submit c2WitnessState).secret = c2WitnessState.secret ∧
      status (submit c2WitnessState) =
        (if (scoreGuess c2WitnessState.secret c2WitnessState.current).blacks =
            c2WitnessState.length then Status.Won
         else if c2WitnessState.attempts ≤ c2WitnessState.history.length + 1 then Status.Lost
         else Status.InProgress) :=
  submit_transition c2WitnessState (by decide)

/-- Entropy source that always picks index 0 (initial secret `[r,r,r,r]`). -/
def rndZero : Nat → Nat := fun _ => 0

/-- A reachable play: fill the row with `b` and submit, three times (ten
attempts configured, no guess wins against `[r,r,r,r]`), then lower the
attempts setting to 2 mid-game and fill the row again. -/
def c2Trace : List Action :=
  [Action.pick "b", Action.pick "b", Action.pick "b", Action.pick "b", Action.submitGuess,
   Action.pick "b", Action.pick "b", Action.pick "b", Action.pick "b", Action.submitGuess,
   Action.pick "b", Action.pick "b", Action.pick "b", Action.pick "b", Action.submitGuess,
   Action.setAttempts 2,
   Action.pick "b", Action.pick "b", Action.pick "b", Action.pick "b"]

def c2CounterState : AppState :=
  c2Trace.foldl step (initState rndZero)

/-- C2, counterexample: in the reachable state reached by `c2Trace` the game
is in progress with a complete guess, the guess does not win, and the new
history length (4) is **not equal** to the configured `attempts` (2) — so the
claim's `else if history.length == maxAttempts` rule keeps the game in
progress — yet the code's `newHistory.length >= attempts` comparison ends the
game as `Lost`. -/
theorem submit_equals_maxAttempts_counterexample :
    Reachable rndZero c2CounterState ∧
      canSubmit c2CounterState = true ∧
      (scoreGuess c2CounterState.secret c2CounterState.current).blacks ≠ c2CounterState.length ∧
      c2CounterState.history.length + 1 ≠ c2CounterState.attempts ∧
      status (step c2CounterState Action.submitGuess) = Status.Lost := by
  refine ⟨?_, by decide, by decide, by decide, by decide⟩
  apply reachable_foldl Reachable.init
  intro a ha
  fin_cases ha <;> trivial

/-! ## C6 — rejected submissions -/

/-- C6 (amended): a `submit` after the game is terminal, or with any slot
unset (falsy), is silently ignored — the guard `if (!canSubmit) return;`
leaves the whole state (history, secret, status) unchanged, and no error of
any kind is surfaced to the caller. -/
theorem submit_rejected_leaves_state_unchanged :
    ∀ st : AppState, st.gameOver = true ∨ st.current.all jsTruthy = false →
      submit st = st := by
  intro st h
  have hc : canSubmit st = false := by
    rw [canSubmit]
    rcases h with h | h <;> simp [h]
  rw [submit, hc]
  rfl

/-- Terminal state used for the C6 witness and counterexample: a finished
(won) one-attempt game with a refilled current row. -/
def c6TerminalState : AppState :=
  { palette := defaultPalette,
    length := 2,
    attempts := 5,
    allowDup := true,
    secret := [some "r", some "r"],
    current := [some "b", some "b"],
    cursor := 0,
    history := [{ guess := [some "r", some "r"], feedback := { blacks := 2, whites := 0 } }],
    gameOver := true,
    reveal := false }

/-- C6, witness: the amended theorem applied to the concrete terminal
state. -/
theorem submit_rejected_leaves_state_unchanged_witness :
    submit c6TerminalState = c6TerminalState :=
  submit_rejected_leaves_state_unchanged c6TerminalState (Or.inl rfl)

/-- C6, counterexample to the claim as stated: on the terminal state the spec
prescribes a surfaced `InvalidInput` error, but the code's `submit` simply
returns (the state unchanged) — there is no `throw` or error value anywhere
in it, so the call is indistinguishable from not calling at all. -/
theorem submit_rejected_no_error_counterexample :
    submit c6TerminalState = c6TerminalState ∧
      status c6TerminalState ≠ Status.InProgress ∧
      submitSpecError c6TerminalState = some "InvalidInput" := by
  refine ⟨by decide, by decide, by decide⟩

/-! ## C5 — duplicate-free generation and its fallback -/

/-- C5: with `allowDuplicates = false` and a duplicate-free non-empty palette,
the generated code has exactly `length` entries, each a palette color; when
`length ≤ |palette|` the entries are pairwise distinct; when
`length > |palette|` the generator transparently falls back to the
with-replacement algorithm (and still returns `length` colors without
failing). -/
theorem randomCode_noDup_spec :
    ∀ (keys : List String) (len : Nat) (rnd : Nat → Nat)
      (shuffle : List String → List String),
      (∀ l, (shuffle l).Perm l) → keys.Nodup → keys ≠ [] →
        (randomCode keys len false rnd shuffle).length = len ∧
          (∀ x ∈ randomCode keys len false rnd shuffle, ∃ k ∈ keys, x = some k) ∧
          (len ≤ keys.length → (randomCode keys len false rnd shuffle).Nodup) ∧
          (keys.length < len →
            randomCode keys len false rnd shuffle = randomCodeDup keys len rnd) := by
  intro keys len rnd shuffle hshuffle hnodup hne
  have hperm : (shuffle keys).Perm keys := hshuffle keys
  have hkeyslen : (shuffle keys).length = keys.length := hperm.length_eq
  by_cases hfall : len > keys.length
  · have heq : randomCode keys len false rnd shuffle = randomCodeDup keys len rnd := by
      rw [randomCode, if_neg (by simp), if_pos hfall]
    refine ⟨?_, ?_, ?_, fun _ => heq⟩
    · rw [heq, randomCodeDup]
      simp
    · intro x hx
      rw [heq, randomCodeDup] at hx
      rcases List.mem_map.mp hx with ⟨i, _, hi⟩
      have hpos : 0 < keys.length := List.length_pos.mpr hne
      have hlt : rnd i % keys.length < keys.length := Nat.mod_lt _ hpos
      refine ⟨keys[rnd i % keys.length], List.getElem_mem hlt, ?_⟩
      rw [← hi, List.get?_eq_getElem?, List.getElem?_eq_getElem hlt]
    · intro hle
      omega
  · have hle : len ≤ keys.length := Nat.le_of_not_lt hfall
    have hform : randomCode keys len false rnd shuffle =
        ((shuffle keys).take len).map some := by
      rw [randomCode, if_neg (by simp), if_neg hfall]
    refine ⟨?_, ?_, fun _ => ?_, ?_⟩
    · rw [hform]
      simp [List.length_take]
      omega
    · intro x hx
      rw [hform] at hx
      rcases List.mem_map.mp hx with ⟨k, hk, hkx⟩
      exact ⟨k, hperm.mem_iff.mp (List.mem_of_mem_take hk), hkx.symm⟩
    · rw [hform]
      apply List.Nodup.map (Option.some_injective String)
      exact ((List.take_sublist len (shuffle keys)).nodup (hperm.nodup_iff.mpr hnodup))
    · intro hgt
      omega

/-- C5, witness: both regimes at the duplicate-free palette `[r,b]` with the
identity shuffle — `length = 2` yields a duplicate-free code, `length = 3`
takes the with-replacement fallback. -/
theorem randomCode_noDup_spec_witness :
    (randomCode ["r", "b"] 2 false rndZero id).Nodup ∧
      randomCode ["r", "b"] 3 false rndZero id = randomCodeDup ["r", "b"] 3 rndZero :=
  ⟨(randomCode_noDup_spec ["r", "b"] 2 rndZero id (fun l => List.Perm.refl l)
      (by decide) (by decide)).2.2.1 (by decide),
   (randomCode_noDup_spec ["r", "b"] 3 rndZero id (fun l => List.Perm.refl l)
      (by decide) (by decide)).2.2.2 (by decide)⟩

/-! ## C8 — degenerate generation inputs -/

theorem randomCodeDup_nil (len : Nat) (rnd : Nat → Nat) :
    randomCodeDup [] len rnd = List.replicate len none := by
  rw [randomCodeDup, List.eq_replicate_iff]
  constructor
  · simp
  · intro b hb
    rcases List.mem_map.mp hb with ⟨i, _, hi⟩
    simpa using hi.symm

/-- C8 (amended): degenerate inputs are not validated and no error is raised.
With an empty palette `randomCode` returns a length-`length` code all of
whose entries are `undefined` (`none`) — a malformed code — and with
`length = 0` it returns the empty code; in both cases the call returns
normally. -/
theorem randomCode_degenerate_returns :
    ∀ (len : Nat) (dup : Bool) (rnd : Nat → Nat) (shuffle : List String → List String),
      (∀ l, (shuffle l).Perm l) →
        randomCode [] len dup rnd shuffle = List.replicate len none ∧
          ∀ keys : List String, randomCode keys 0 dup rnd shuffle = [] := by
  intro len dup rnd shuffle hshuffle
  constructor
  · cases dup with
    | true => rw [randomCode, if_pos rfl, randomCodeDup_nil]
    | false =>
      cases len with
      | zero =>
        rw [randomCode, if_neg (by simp), if_neg (by simp)]
        simp
      | succ n =>
        rw [randomCode, if_neg (by simp), if_pos (by simp), randomCodeDup_nil]
  · intro keys
    cases dup with
    | true =>
      rw [randomCode, if_pos rfl, randomCodeDup]
      simp
    | false =>
      rw [randomCode, if_neg (by simp), if_neg (by simp)]
      simp

/-- C8, witness: the amended behaviour at the concrete degenerate inputs —
empty palette with `length = 1`, and `length = 0` with palette `[r]`. -/
theorem randomCode_degenerate_returns_witness :
    randomCode [] 1 true rndZero id = List.replicate 1 none ∧
      randomCode ["r"] 0 true rndZero id = [] :=
  ⟨(randomCode_degenerate_returns 1 true rndZero id (fun l => List.Perm.refl l)).1,
   (randomCode_degenerate_returns 0 true rndZero id (fun l => List.Perm.refl l)).2 ["r"]⟩

/-- C8, counterexample to the claim as stated: for the empty palette the spec
prescribes a fail-fast `InvalidConfiguration` error, but the code happily
returns the malformed code `[undefined]` (and `[]` for `length = 0`); no
error path exists in `randomCode`. -/
theorem randomCode_degenerate_no_error_counterexample :
    generateSpecError [] 1 = some "InvalidConfiguration" ∧
      randomCode [] 1 true rndZero id = [none] ∧
      generateSpecError ["r"] 0 = some "InvalidConfiguration" ∧
      randomCode ["r"] 0 true rndZero id = [] := by
  refine ⟨by decide, by decide, by decide, by decide⟩

/-! ## C7 — the `secret.length == length` invariant -/

theorem randomCode_length (keys : List String) (len : Nat) (dup : Bool)
    (rnd : Nat → Nat) (shuffle : List String → List String)
    (hshuffle : ∀ l, (shuffle l).Perm l) :
    (randomCode keys len dup rnd shuffle).length = len := by
  cases dup with
  | true =>
    rw [randomCode, if_pos rfl, randomCodeDup]
    simp
  | false =>
    by_cases hfall : len > keys.length
    · rw [randomCode, if_neg (by simp), if_pos hfall, randomCodeDup]
      simp
    · rw [randomCode, if_neg (by simp), if_neg hfall]
      have := (hshuffle keys).length_eq
      simp [List.length_take]
      omega

theorem submit_secret_eq (st : AppState) : (submit st).secret = st.secret := by
  rw [submit]
  split
  · rfl
  · dsimp only
    split
    · rfl
    · split
      · rfl
      · rfl

theorem submit_length_eq (st : AppState) : (submit st).length = st.length := by
  rw [submit]
  split
  · rfl
  · dsimp only
    split
    · rfl
    · split
      · rfl
      · rfl

/-- C7 (amended): `secret.length = length` holds in the initial state and is
re-established by every `resetGame`; every action **other than changing the
configured length** preserves it.  Changing the length setting alone (the
`setLength` handler) updates `length` without regenerating `secret`, so the
invariant can be broken until the next reset — the claim's "always, including
after the configured length is changed" fails on the code. -/
theorem secret_length_invariant :
    ∀ rnd : Nat → Nat,
      (initState rnd).secret.length = (initState rnd).length ∧
        (∀ (st : AppState) (rnd2 : Nat → Nat) (shuffle : List String → List String),
          (∀ l, (shuffle l).Perm l) →
            (step st (Action.reset rnd2 shuffle)).secret.length =
              (step st (Action.reset rnd2 shuffle)).length) ∧
        (∀ (st : AppState) (a : Action), ActionOK a → (∀ v, a ≠ Action.setLength v) →
          st.secret.length = st.length →
            (step st a).secret.length = (step st a).length) := by
  intro rnd
  refine ⟨?_, ?_, ?_⟩
  · exact randomCode_length _ 4 true rnd id (fun l => List.Perm.refl l)
  · intro st rnd2 shuffle hshuffle
    rw [step]
    simp [randomCode_length _ _ _ _ _ hshuffle]
  · intro st a hok hnl hinv
    cases a with
    | setLength v => exact absurd rfl (hnl v)
    | setAttempts v => simpa [step] using hinv
    | setAllowDup b => simpa [step] using hinv
    | setSlot i => simpa [step] using hinv
    | pick k =>
      rw [step]
      by_cases hgo : st.gameOver <;> simp [hgo, hinv]
    | submitGuess =>
      rw [step, submit_secret_eq, submit_length_eq]
      exact hinv
    | reset rnd2 shuffle =>
      rw [step]
      simpa using randomCode_length (keysOf st) st.length st.allowDup rnd2 shuffle hok
    | addCyanMagenta => simpa [step] using hinv
    | resetPalette => simpa [step] using hinv
    | toggleReveal => simpa [step] using hinv

/-- C7, witness: the amended invariant applied concretely — it holds in the
initial state, and is preserved by a `toggleReveal` step from there. -/
theorem secret_length_invariant_witness :
    (initState rndZero).secret.length = (initState rndZero).length ∧
      (step (initState rndZero) Action.toggleReveal).secret.length =
        (step (initState rndZero) Action.toggleReveal).length :=
  ⟨(secret_length_invariant rndZero).1,
   (secret_length_invariant rndZero).2.2 (initState rndZero) Action.toggleReveal trivial
     (fun _ h => Action.noConfusion h) (secret_length_invariant rndZero).1⟩

/-- C7, counterexample: from the initial state (secret of length 4), the
user raises the length setting to 5; the code stores the new length but does
not touch the running game's secret, so the reachable successor state has
`secret.length = 4 ≠ 5 = length`. -/
theorem secret_length_invariant_counterexample :
    Reachable rndZero (step (initState rndZero) (Action.setLength 5)) ∧
      (step (initState rndZero) (Action.setLength 5)).secret.length ≠
        (step (initState rndZero) (Action.setLength 5)).length := by
  refine ⟨Reachable.step Reachable.init trivial, by decide⟩

/-! ## C10 — revealSecret is read-only and idempotent -/

/-- C10: `revealSecret` is a pure read of `secret` — however many times the
reveal toggle fires, it keeps returning the same code, and neither the
secret, nor the history, nor the status changes. -/
theorem revealSecret_readonly_idempotent :
    ∀ (st : AppState) (n : Nat),
      revealSecret ((fun s => step s Action.toggleReveal)^[n] st) = revealSecret st ∧
        ((fun s => step s Action.toggleReveal)^[n] st).secret = st.secret ∧
        ((fun s => step s Action.toggleReveal)^[n] st).history = st.history ∧
        status ((fun s => step s Action.toggleReveal)^[n] st) = status st := by
  intro st n
  induction n with
  | zero => exact ⟨rfl, rfl, rfl, rfl⟩
  | succ n ih =>
    rw [Function.iterate_succ_apply']
    rcases ih with ⟨h1, h2, h3, h4⟩
    refine ⟨?_, ?_, ?_, ?_⟩
    · rw [← h1]
      rfl
    · rw [← h2]
      rfl
    · rw [← h3]
      rfl
    · rw [← h4]
      rfl
